import Mathlib

/-!
Verification of the music-recommendation core (NestJS/TypeScript service).

Shallow embedding: each JS/TS function that a claim depends on is translated
into an executable Lean definition over explicit data (lists, association
lists, rationals for JS numbers), and the claims are settled as theorems
about those definitions.  Database query results, cache contents and
ML-service replies are passed in as explicit arguments, mirroring exactly
what the corresponding SQL / HTTP call returns.
-/

namespace MusicRec

/-! ## Shared data model (packages/shared/src/schemas.ts, unnamed/part_010) -/

/-- Event kinds of an interaction (`EventTypeSchema`). -/
inductive EventType
  | PLAY | SKIP | LIKE | DISLIKE | ADD_TO_PLAYLIST
  deriving DecidableEq, Repr

/-- Moods (`MoodSchema`). -/
inductive Mood
  | CALM | HAPPY | SAD | ENERGETIC
  deriving DecidableEq, Repr

/-- Activities (`ActivitySchema`). -/
inductive Activity
  | WORK | EXERCISE | RELAX | PARTY
  deriving DecidableEq, Repr

/-- Time buckets (`TimeBucketSchema`). -/
inductive TimeBucket
  | MORNING | AFTERNOON | EVENING | NIGHT
  deriving DecidableEq, Repr

/-- An interaction context after Zod validation: only the three known fields
survive (`InteractionContextSchema` strips unknown keys), each optional. -/
structure InteractionContext where
  mood : Option Mood
  activity : Option Activity
  timeBucket : Option TimeBucket
  deriving DecidableEq, Repr

/-- The audio-feature fields the recommendation code reads; each is optional
in the JSONB bag.  JS numbers are modelled as rationals. -/
structure AudioFeatures where
  energy : Option ℚ
  valence : Option ℚ
  danceability : Option ℚ
  deriving DecidableEq, Repr

/-- The track fields the recommendation code reads.  `audioFeatures` is
`none` when the `audio_features` column is NULL. -/
structure Track where
  id : String
  title : String
  artist : String
  genre : String
  audioFeatures : Option AudioFeatures
  deriving DecidableEq, Repr

/-! ## C1: interaction append and skip-burst detection
(src/unnamed/part_002, `InteractionsService`;
src/apps/api/src/interactions/interactions.controller.ts) -/

/-- A persisted interaction row (columns used by the skip-window query).
`createdAt` is the server clock value (seconds) assigned by `NOW()`. -/
structure Interaction where
  externalUserId : String
  trackId : String
  eventType : EventType
  createdAt : ℤ
  deriving DecidableEq, Repr

/-- The `SKIP_DETECTION_WINDOW_SEC` constant of `InteractionsService`. -/
def SKIP_DETECTION_WINDOW_SEC : ℤ := 60

/-- The `SKIP_THRESHOLD` constant of `InteractionsService`. -/
def SKIP_THRESHOLD : ℕ := 2

/-- The skip-window count query of `shouldRefreshRecommendations`:
`SELECT COUNT(*) FROM interactions WHERE external_user_id = $1 AND
event_type = 'SKIP' AND created_at > NOW() - INTERVAL '60 seconds'`,
evaluated against the table contents `history` at server time `now`. -/
def countRecentSkips (history : List Interaction) (userId : String) (now : ℤ) : ℕ :=
  (history.filter (fun i =>
    i.externalUserId == userId && i.eventType == EventType.SKIP &&
      decide (now - SKIP_DETECTION_WINDOW_SEC < i.createdAt))).length

/-- `InteractionsService.shouldRefreshRecommendations`: returns false unless
the event is a SKIP, otherwise compares the windowed skip count with the
threshold. -/
def shouldRefreshRecommendations (history : List Interaction) (userId : String)
    (eventType : EventType) (now : ℤ) : Bool :=
  if eventType ≠ EventType.SKIP then false
  else SKIP_THRESHOLD ≤ countRecentSkips history userId now

/-- `InteractionsService.recordInteraction`: inserts the row with
`created_at = NOW()` and then runs the skip-window check against the table
that already contains the new row.  Returns the new table contents and the
`shouldRefreshRecommendations` flag. -/
def recordInteraction (history : List Interaction) (userId trackId : String)
    (eventType : EventType) (now : ℤ) : List Interaction × Bool :=
  let history' := history ++ [⟨userId, trackId, eventType, now⟩]
  (history', shouldRefreshRecommendations history' userId eventType now)

/-- A `recommendations:update` fan-out as initiated by the controller:
`triggerRecommendationRefresh(userId, reason)`. -/
structure FanOut where
  userId : String
  reason : String
  deriving DecidableEq, Repr

/-- `InteractionsController.recordInteraction`: calls the service and, when
the flag is set, initiates exactly one fan-out with reason
`skip_detected`.  Returns (new table, refreshTriggered flag, fan-outs). -/
def controllerRecordInteraction (history : List Interaction) (userId trackId : String)
    (eventType : EventType) (now : ℤ) : List Interaction × Bool × List FanOut :=
  let r := recordInteraction history userId trackId eventType now
  (r.1, r.2, if r.2 then [⟨userId, "skip_detected"⟩] else [])

/-! ## C3: recommendation cache key
(src/apps/api/src/recommendations/recommendations.service.ts line 34,
src/apps/api/src/recommendations/recommendations.controller.ts) -/

/-- JSON rendering of a mood value. -/
def moodJson : Mood → String
  | .CALM => "\"CALM\"" | .HAPPY => "\"HAPPY\"" | .SAD => "\"SAD\""
  | .ENERGETIC => "\"ENERGETIC\""

/-- JSON rendering of an activity value. -/
def activityJson : Activity → String
  | .WORK => "\"WORK\"" | .EXERCISE => "\"EXERCISE\"" | .RELAX => "\"RELAX\""
  | .PARTY => "\"PARTY\""

/-- JSON rendering of a time bucket value. -/
def timeBucketJson : TimeBucket → String
  | .MORNING => "\"MORNING\"" | .AFTERNOON => "\"AFTERNOON\""
  | .EVENING => "\"EVENING\"" | .NIGHT => "\"NIGHT\""

/-- `JSON.stringify` of a validated context object.  The Zod-parsed object
carries the keys in schema order (mood, activity, timeBucket); keys whose
value is `undefined` are dropped by `JSON.stringify`. -/
def stringifyContext (c : InteractionContext) : String :=
  let fields :=
    (match c.mood with | some m => ["\"mood\":" ++ moodJson m] | none => []) ++
    (match c.activity with | some a => ["\"activity\":" ++ activityJson a] | none => []) ++
    (match c.timeBucket with | some t => ["\"timeBucket\":" ++ timeBucketJson t] | none => [])
  "\x7b" ++ String.intercalate "," fields ++ "\x7d"

/-- The template-literal serialization of `request.context` used on line 34:
`JSON.stringify(undefined)` evaluates to the value `undefined`, which the
template literal renders as the text `undefined`. -/
def stringifyOptContext : Option InteractionContext → String
  | none => "undefined"
  | some c => stringifyContext c

/-- The cache key computed by `RecommendationsService.getRecommendations`:
`recommendations:${externalUserId}:${JSON.stringify(context)}`. -/
def cacheKey (externalUserId : String) (context : Option InteractionContext) : String :=
  "recommendations:" ++ externalUserId ++ ":" ++ stringifyOptContext context

/-- The context value with all three fields absent (the "empty object"). -/
def emptyContext : InteractionContext := ⟨none, none, none⟩

/-! ## C7: the push-engine trigger never propagates errors
(src/apps/api/src/websocket/recommendation.gateway.ts lines 81-111) -/

/-- Payload of a `recommendations:update` emit. -/
structure UpdateEvent where
  tracks : List Track
  reason : String
  deriving DecidableEq, Repr

/-- `RecommendationGateway.triggerRecommendationRefresh`, with its three
effectful dependencies passed in as their outcomes: the result of
`invalidateCache`, the result of `getRecommendations`, and the outcome of
the socket emit on the user's room (`emitFails = true` when the emit
throws).  The whole body sits in a `try` whose `catch` only logs, so every
failure path falls through to a normal return; the function also reports
which update events were delivered (none, when anything failed). -/
def triggerRecommendationRefresh (reason : String)
    (invalidateResult : Except String Unit)
    (recsResult : Except String (List Track))
    (emitFails : Bool) : Except String Unit × List UpdateEvent :=
  match invalidateResult with
  | .error _ => (.ok (), [])
  | .ok () =>
    match recsResult with
    | .error _ => (.ok (), [])
    | .ok tracks =>
      if emitFails then (.ok (), [])
      else (.ok (), [⟨tracks, reason⟩])

/-! ## Theorems for C1, C3, C7 -/

/-- C1: `recordInteraction` reports `shouldRefreshRecommendations = true`
iff the event is a SKIP and the user's SKIP count in the rolling 60-second
window of the post-insert table (which contains the SKIP just persisted)
is at least 2; the controller initiates exactly one `recommendations:update`
fan-out with reason `skip_detected` when the flag is true, and a non-SKIP
event never initiates one. -/
theorem skip_burst_trigger_iff (history : List Interaction)
    (userId trackId : String) (eventType : EventType) (now : ℤ) :
    ((recordInteraction history userId trackId eventType now).2 = true ↔
      (eventType = EventType.SKIP ∧
        SKIP_THRESHOLD ≤ countRecentSkips
          (history ++ [⟨userId, trackId, eventType, now⟩]) userId now)) ∧
    ((controllerRecordInteraction history userId trackId eventType now).2.2 =
      if (recordInteraction history userId trackId eventType now).2
      then [⟨userId, "skip_detected"⟩] else []) ∧
    (eventType ≠ EventType.SKIP →
      (controllerRecordInteraction history userId trackId eventType now).2.2 = []) := by
  refine ⟨?_, rfl, ?_⟩
  · unfold recordInteraction shouldRefreshRecommendations
    by_cases h : eventType = EventType.SKIP
    · simp [h]
    · simp [h]
  · intro h
    unfold controllerRecordInteraction recordInteraction shouldRefreshRecommendations
    simp [h]

/-- C7: `triggerRecommendationRefresh` returns normally whatever the cache
invalidation, the pipeline rerun or the emit do: every outcome of the three
dependencies yields `ok`, and on any failure no update event is delivered
(the sessions stay silent). -/
theorem trigger_refresh_never_throws (reason : String)
    (invalidateResult : Except String Unit)
    (recsResult : Except String (List Track)) (emitFails : Bool) :
    (triggerRecommendationRefresh reason invalidateResult recsResult emitFails).1 =
      Except.ok () ∧
    ((triggerRecommendationRefresh reason invalidateResult recsResult emitFails).2 = [] ∨
      ∃ tracks, recsResult = .ok tracks ∧
        (triggerRecommendationRefresh reason invalidateResult recsResult emitFails).2 =
          [⟨tracks, reason⟩]) := by
  unfold triggerRecommendationRefresh
  rcases invalidateResult with e | u
  · exact ⟨rfl, Or.inl rfl⟩
  · rcases recsResult with e | tracks
    · exact ⟨rfl, Or.inl rfl⟩
    · cases u
      by_cases he : emitFails
      · simp [he]
      · simp [he]

/-- C3 counterexample: for user "u" the request with no context and the
request with the empty-object context produce different cache keys
(`recommendations:u:undefined` vs `recommendations:u:{}`), so they do not
address the same cache entry. -/
theorem cache_key_missing_vs_empty_cex :
    cacheKey "u" none ≠ cacheKey "u" (some emptyContext) := by
  decide

/-- C3 amended: the cache key is always
`recommendations:{userID}:{serialization}` where a missing context
serializes to the literal text `undefined` and the empty-object context to
`\x7b\x7d`; consequently, for every user ID the two requests address
different cache entries. -/
theorem cache_key_shape (userId : String) :
    cacheKey userId none = "recommendations:" ++ userId ++ ":undefined" ∧
    cacheKey userId (some emptyContext) = "recommendations:" ++ userId ++ ":\x7b\x7d" ∧
    cacheKey userId none ≠ cacheKey userId (some emptyContext) := by
  refine ⟨?_, ?_, ?_⟩
  · simp [cacheKey, stringifyOptContext, String.append_assoc]
  · simp [cacheKey, stringifyOptContext, stringifyContext, emptyContext,
      String.intercalate, String.append_assoc]
  · intro h
    have hlen := congrArg String.length h
    simp only [cacheKey, stringifyOptContext, stringifyContext, emptyContext,
      String.length_append] at hlen
    have h1 : "undefined".length = 9 := rfl
    have h2 : "\x7b".length = 1 := rfl
    have h3 : "\x7d".length = 1 := rfl
    have h4 : (String.intercalate "," ([] ++ [] ++ [])).length = 0 := rfl
    omega

/-! ## C4: context reranker
(src/apps/api/src/recommendations/recommendations.service.ts lines 180-237;
identical in src/unnamed/part_005 lines 221-278) -/

/-- JS truthiness of an optional numeric field: `undefined` and `0` are
falsy (the code guards every contribution with
`context.x === '…' && t.audioFeatures?.field`). -/
def featTruthy : Option ℚ → Bool
  | some v => v != 0
  | none => false

/-- Optional-chaining access `t.audioFeatures?.energy`. -/
def trackEnergy (t : Track) : Option ℚ := t.audioFeatures.bind AudioFeatures.energy

/-- Optional-chaining access `t.audioFeatures?.valence`. -/
def trackValence (t : Track) : Option ℚ := t.audioFeatures.bind AudioFeatures.valence

/-- Optional-chaining access `t.audioFeatures?.danceability`. -/
def trackDanceability (t : Track) : Option ℚ :=
  t.audioFeatures.bind AudioFeatures.danceability

/-- The per-track context score computed inside the `rankByContext`
comparator (the same expression is evaluated for both arguments, so the
comparator is induced by this key).  Each summand is guarded by the JS
truthiness of the feature, so a missing bag, a missing field, or a field
equal to 0 contributes nothing. -/
def codeScore (c : InteractionContext) (t : Track) : ℚ :=
  (if c.activity = some Activity.EXERCISE ∧ featTruthy (trackEnergy t)
    then (trackEnergy t).getD 0 * 10 else 0)
  + (if c.mood = some Mood.CALM ∧ featTruthy (trackEnergy t)
    then (1 - (trackEnergy t).getD 0) * 10 else 0)
  + (if c.mood = some Mood.ENERGETIC ∧ featTruthy (trackEnergy t)
    then (trackEnergy t).getD 0 * 10 else 0)
  + (if c.mood = some Mood.HAPPY ∧ featTruthy (trackValence t)
    then (trackValence t).getD 0 * 10 else 0)
  + (if c.mood = some Mood.SAD ∧ featTruthy (trackValence t)
    then (1 - (trackValence t).getD 0) * 10 else 0)
  + (if c.activity = some Activity.RELAX ∧ featTruthy (trackEnergy t)
    then (1 - (trackEnergy t).getD 0) * 8 else 0)
  + (if c.activity = some Activity.PARTY ∧ featTruthy (trackDanceability t)
    then (trackDanceability t).getD 0 * 10 else 0)

/-- Stable insertion into a descending-sorted list: the new element goes
after every element whose key is ≥ its own (so earlier elements with an
equal key stay in front of it). -/
def insertDesc (key : α → ℚ) (x : α) : List α → List α
  | [] => [x]
  | y :: ys => if key y < key x then x :: y :: ys else y :: insertDesc key x ys

/-- Left-to-right insertion pass. -/
def sortDescGo (key : α → ℚ) (acc : List α) : List α → List α
  | [] => acc
  | x :: xs => sortDescGo key (insertDesc key x acc) xs

/-- Stable sort by descending key.  `Array.prototype.sort` with the
comparator `(a, b) => scoreB - scoreA` is a stable descending sort by the
per-element score (stability is guaranteed by ECMAScript), which this
insertion sort realizes. -/
def sortDesc (key : α → ℚ) (l : List α) : List α := sortDescGo key [] l

/-- `RecommendationsService.rankByContext`: sorts the candidates by the
context score, descending, stably. -/
def rankByContext (c : InteractionContext) (tracks : List Track) : List Track :=
  sortDesc (codeScore c) tracks

/-- The scoring function claimed by the specification reading under test:
a contribution is made whenever the relevant field is present, even when
its value is 0 (so a `(1 - feature)` term pays in full at `feature = 0`). -/
def claimScore (c : InteractionContext) (t : Track) : ℚ :=
  (if c.activity = some Activity.EXERCISE ∧ (trackEnergy t).isSome
    then (trackEnergy t).getD 0 * 10 else 0)
  + (if c.mood = some Mood.CALM ∧ (trackEnergy t).isSome
    then (1 - (trackEnergy t).getD 0) * 10 else 0)
  + (if c.mood = some Mood.ENERGETIC ∧ (trackEnergy t).isSome
    then (trackEnergy t).getD 0 * 10 else 0)
  + (if c.mood = some Mood.HAPPY ∧ (trackValence t).isSome
    then (trackValence t).getD 0 * 10 else 0)
  + (if c.mood = some Mood.SAD ∧ (trackValence t).isSome
    then (1 - (trackValence t).getD 0) * 10 else 0)
  + (if c.activity = some Activity.RELAX ∧ (trackEnergy t).isSome
    then (1 - (trackEnergy t).getD 0) * 8 else 0)
  + (if c.activity = some Activity.PARTY ∧ (trackDanceability t).isSome
    then (trackDanceability t).getD 0 * 10 else 0)

/-! Sorting lemmas shared by C4 (and reused for the interest-graph sort). -/

theorem insertDesc_perm (key : α → ℚ) (x : α) (l : List α) :
    (insertDesc key x l).Perm (x :: l) := by
  induction l with
  | nil => exact List.Perm.refl _
  | cons y ys ih =>
    unfold insertDesc
    by_cases h : key y < key x
    · simp only [if_pos h]
      exact List.Perm.refl _
    · simp only [if_neg h]
      exact (ih.cons y).trans (List.Perm.swap x y ys)

theorem insertDesc_mem {key : α → ℚ} {x z : α} {l : List α}
    (h : z ∈ insertDesc key x l) : z = x ∨ z ∈ l := by
  have := (insertDesc_perm key x l).mem_iff.mp h
  simpa using this

theorem insertDesc_pairwise {key : α → ℚ} {x : α} {l : List α}
    (h : l.Pairwise (fun a b => key b ≤ key a)) :
    (insertDesc key x l).Pairwise (fun a b => key b ≤ key a) := by
  induction l with
  | nil => simp [insertDesc]
  | cons y ys ih =>
    unfold insertDesc
    rcases List.pairwise_cons.mp h with ⟨hy, hys⟩
    by_cases hlt : key y < key x
    · simp only [if_pos hlt]
      refine List.pairwise_cons.mpr ⟨?_, h⟩
      intro z hz
      rcases List.mem_cons.mp hz with rfl | hz
      · exact le_of_lt hlt
      · exact (hy z hz).trans (le_of_lt hlt)
    · simp only [if_neg hlt]
      refine List.pairwise_cons.mpr ⟨?_, ih hys⟩
      intro z hz
      rcases insertDesc_mem hz with rfl | hz
      · exact le_of_not_lt hlt
      · exact hy z hz

theorem insertDesc_filter_key (key : α → ℚ) (x : α) {l : List α} (s : ℚ)
    (h : l.Pairwise (fun a b => key b ≤ key a)) :
    (insertDesc key x l).filter (fun a => decide (key a = s)) =
      if key x = s
      then l.filter (fun a => decide (key a = s)) ++ [x]
      else l.filter (fun a => decide (key a = s)) := by
  induction l with
  | nil =>
    by_cases hx : key x = s <;> simp [insertDesc, hx]
  | cons y ys ih =>
    rcases List.pairwise_cons.mp h with ⟨hy, hys⟩
    unfold insertDesc
    by_cases hlt : key y < key x
    · simp only [if_pos hlt]
      by_cases hx : key x = s
      · have hnil : (y :: ys).filter (fun a => decide (key a = s)) = [] := by
          apply List.filter_eq_nil_iff.mpr
          intro a ha
          rcases List.mem_cons.mp ha with rfl | ha
          · simp only [decide_eq_true_eq]
            exact ne_of_lt (hx ▸ hlt)
          · simp only [decide_eq_true_eq]
            exact ne_of_lt (lt_of_le_of_lt (hy a ha) (hx ▸ hlt))
        simp [hx, hnil]
      · have hxb : (decide (key x = s)) = false := by simp [hx]
        simp [List.filter_cons, hx, hxb]
    · simp only [if_neg hlt]
      by_cases hys' : key y = s <;> by_cases hx : key x = s <;>
        simp [List.filter_cons, hys', hx, ih hys]

theorem sortDescGo_pairwise {key : α → ℚ} {acc : List α} (l : List α)
    (h : acc.Pairwise (fun a b => key b ≤ key a)) :
    (sortDescGo key acc l).Pairwise (fun a b => key b ≤ key a) := by
  induction l generalizing acc with
  | nil => exact h
  | cons x xs ih => exact ih (insertDesc_pairwise h)

theorem sortDescGo_perm (key : α → ℚ) (acc l : List α) :
    (sortDescGo key acc l).Perm (acc ++ l) := by
  induction l generalizing acc with
  | nil => simp [sortDescGo]
  | cons x xs ih =>
    calc sortDescGo key (insertDesc key x acc) xs
        |>.Perm (insertDesc key x acc ++ xs) := ih _
      _ |>.Perm (x :: acc ++ xs) :=
            (insertDesc_perm key x acc).append_right xs
      _ |>.Perm (acc ++ x :: xs) := List.perm_middle.symm

theorem sortDescGo_filter_key (key : α → ℚ) (acc : List α) (l : List α) (s : ℚ)
    (h : acc.Pairwise (fun a b => key b ≤ key a)) :
    (sortDescGo key acc l).filter (fun a => decide (key a = s)) =
      acc.filter (fun a => decide (key a = s)) ++
        l.filter (fun a => decide (key a = s)) := by
  induction l generalizing acc with
  | nil => simp [sortDescGo]
  | cons x xs ih =>
    have hstep := insertDesc_filter_key key x s h
    have := ih (insertDesc key x acc) (insertDesc_pairwise h)
    rw [sortDescGo, this, hstep]
    by_cases hx : key x = s
    · simp [List.filter_cons, hx, List.append_assoc]
    · simp [List.filter_cons, hx]

theorem sortDesc_perm (key : α → ℚ) (l : List α) : (sortDesc key l).Perm l :=
  sortDescGo_perm key [] l

theorem sortDesc_pairwise (key : α → ℚ) (l : List α) :
    (sortDesc key l).Pairwise (fun a b => key b ≤ key a) :=
  sortDescGo_pairwise l (by simp)

theorem sortDesc_filter_key (key : α → ℚ) (l : List α) (s : ℚ) :
    (sortDesc key l).filter (fun a => decide (key a = s)) =
      l.filter (fun a => decide (key a = s)) := by
  have := sortDescGo_filter_key key [] l s (by simp)
  simpa [sortDesc] using this

/-! ## Theorems for C4 -/

/-- A concrete CALM-context track pair: `cexT1` has energy exactly 0 and
`cexT2` has energy 1/2. -/
def cexT1 : Track := ⟨"t1", "T1", "A1", "g", some ⟨some 0, none, none⟩⟩

/-- Companion track for the C4 counterexample. -/
def cexT2 : Track := ⟨"t2", "T2", "A2", "g", some ⟨some (1/2), none, none⟩⟩

/-- The CALM mood context. -/
def ctxCalm : InteractionContext := ⟨some Mood.CALM, none, none⟩

/-- C4 counterexample: under mood CALM, a track whose energy is present
with value 0 does NOT receive the `10·(1−energy)` contribution — JS
truthiness treats the 0 like a missing field — so the code ranks it last
even though the claimed scoring gives it the strictly highest score. -/
theorem rank_by_context_zero_feature_cex :
    rankByContext ctxCalm [cexT1, cexT2] = [cexT2, cexT1] ∧
      claimScore ctxCalm cexT2 < claimScore ctxCalm cexT1 := by
  have h1 : codeScore ctxCalm cexT1 = 0 := by
    simp [codeScore, ctxCalm, cexT1, trackEnergy, trackValence,
      trackDanceability, featTruthy]
  have h2 : codeScore ctxCalm cexT2 = 5 := by
    simp [codeScore, ctxCalm, cexT2, trackEnergy, trackValence,
      trackDanceability, featTruthy]
    norm_num
  constructor
  · simp [rankByContext, sortDesc, sortDescGo, insertDesc, h1, h2]
  · have h3 : claimScore ctxCalm cexT1 = 10 := by
      simp [claimScore, ctxCalm, cexT1, trackEnergy, trackValence,
        trackDanceability]
    have h4 : claimScore ctxCalm cexT2 = 5 := by
      simp [claimScore, ctxCalm, cexT2, trackEnergy, trackValence,
        trackDanceability]
      norm_num
    rw [h3, h4]
    norm_num

/-- C4 amended: `rankByContext` returns a permutation of its input that is
sorted by the context score descending, where the score of a track is the
sum of the coded contributions and a feature that is absent — or present
with value 0, which JS truthiness treats the same way — contributes 0 to
every term that mentions it; candidates with equal scores keep their
original (ANN) relative order: for every score value the sub-list of
tracks attaining it is unchanged. -/
theorem rank_by_context_stable_sorted (c : InteractionContext)
    (tracks : List Track) (s : ℚ) :
    (rankByContext c tracks).Perm tracks ∧
    (rankByContext c tracks).Pairwise
      (fun a b => codeScore c b ≤ codeScore c a) ∧
    (rankByContext c tracks).filter (fun a => decide (codeScore c a = s)) =
      tracks.filter (fun a => decide (codeScore c a = s)) :=
  ⟨sortDesc_perm _ tracks, sortDesc_pairwise _ tracks,
    sortDesc_filter_key _ tracks s⟩

/-! ## C5: artist diversity
(src/apps/api/src/recommendations/recommendations.service.ts lines 239-265) -/

/-- The `MAX_SAME_ARTIST_CONSECUTIVE` constant of `RecommendationsService`. -/
def MAX_SAME_ARTIST_CONSECUTIVE : ℕ := 3

/-- Count of leading tracks with the given artist (stops at the first
mismatch). -/
def leadRun (a : String) : List Track → ℕ
  | [] => 0
  | t :: ts => if t.artist = a then leadRun a ts + 1 else 0

/-- `RecommendationsService.getConsecutiveArtistCount`: walks the built
list from its end, counting while the artist matches and breaking at the
first mismatch — i.e. the leading run of the reversed list. -/
def getConsecutiveArtistCount (tracks : List Track) (artist : String) : ℕ :=
  leadRun artist tracks.reverse

/-- The loop body of `applyDiversityRules`: push the track unless the last
three appended tracks already share its artist. -/
def diversityGo (acc : List Track) : List Track → List Track
  | [] => acc
  | t :: ts =>
    if getConsecutiveArtistCount acc t.artist < MAX_SAME_ARTIST_CONSECUTIVE
    then diversityGo (acc ++ [t]) ts
    else diversityGo acc ts

/-- `RecommendationsService.applyDiversityRules`. -/
def applyDiversityRules (tracks : List Track) : List Track := diversityGo [] tracks

/-- The response built at the end of `getRecommendations` (lines 60-64):
the diversity-filtered list truncated to the limit,
`tracks.slice(0, limit)`. -/
def responseTracks (pipelineTracks : List Track) (limit : ℕ) : List Track :=
  (applyDiversityRules pipelineTracks).take limit

/-- Four consecutive positions share one artist (decomposition form). -/
def HasFourRun (l : List Track) : Prop :=
  ∃ pre t1 t2 t3 t4 suf, l = pre ++ t1 :: t2 :: t3 :: t4 :: suf ∧
    t2.artist = t1.artist ∧ t3.artist = t1.artist ∧ t4.artist = t1.artist

/-- No index `i` has `tracks[i].artist = tracks[i+1].artist =
tracks[i+2].artist = tracks[i+3].artist` (index form of the claim). -/
def NoFourRun (l : List Track) : Prop :=
  ∀ i (h : i + 3 < l.length),
    ¬ ((l.get ⟨i + 1, by omega⟩).artist = (l.get ⟨i, by omega⟩).artist ∧
       (l.get ⟨i + 2, by omega⟩).artist = (l.get ⟨i, by omega⟩).artist ∧
       (l.get ⟨i + 3, by omega⟩).artist = (l.get ⟨i, by omega⟩).artist)

theorem not_hasFourRun_nil : ¬ HasFourRun [] := by
  rintro ⟨pre, t1, t2, t3, t4, suf, heq, -⟩
  have := congrArg List.length heq
  simp at this
  omega

theorem concat_eq_concat {α : Type} {a b : List α} {x y : α}
    (h : a ++ [x] = b ++ [y]) : a = b ∧ x = y := by
  have hr := congrArg List.reverse h
  simp only [List.reverse_append, List.reverse_cons, List.reverse_nil,
    List.nil_append, List.singleton_append] at hr
  obtain ⟨hx, hab⟩ := List.cons.injEq _ _ _ _ ▸ hr
  exact ⟨by simpa using congrArg List.reverse hab, hx⟩

theorem leadRun_ge_three (p : List Track) {t1 t2 t3 : Track} {a : String}
    (h1 : t1.artist = a) (h2 : t2.artist = a) (h3 : t3.artist = a) :
    3 ≤ getConsecutiveArtistCount (p ++ [t1, t2, t3]) a := by
  unfold getConsecutiveArtistCount
  rw [List.reverse_append]
  simp [leadRun, h1, h2, h3]

theorem diversity_push_ok {acc : List Track} {t : Track}
    (hacc : ¬ HasFourRun acc)
    (hcnt : getConsecutiveArtistCount acc t.artist < MAX_SAME_ARTIST_CONSECUTIVE) :
    ¬ HasFourRun (acc ++ [t]) := by
  rintro ⟨pre, t1, t2, t3, t4, suf, heq, h2, h3, h4⟩
  rcases List.eq_nil_or_concat suf with rfl | ⟨ys, y, rfl⟩
  · have heq' : acc ++ [t] = (pre ++ [t1, t2, t3]) ++ [t4] := by
      rw [heq]; simp
    obtain ⟨hacc', ht⟩ := concat_eq_concat heq'
    subst ht
    subst hacc'
    have hge := leadRun_ge_three pre (a := t.artist) h4.symm
      (h2.trans h4.symm) (h3.trans h4.symm)
    unfold MAX_SAME_ARTIST_CONSECUTIVE at hcnt
    omega
  · have heq' : acc ++ [t] = (pre ++ t1 :: t2 :: t3 :: t4 :: ys) ++ [y] := by
      rw [heq]; simp
    obtain ⟨hacc', rfl⟩ := concat_eq_concat heq'
    exact hacc ⟨pre, t1, t2, t3, t4, ys, hacc', h2, h3, h4⟩

theorem diversityGo_no_run (l : List Track) :
    ∀ acc, ¬ HasFourRun acc → ¬ HasFourRun (diversityGo acc l) := by
  induction l with
  | nil => intro acc h; exact h
  | cons t ts ih =>
    intro acc h
    unfold diversityGo
    by_cases hc : getConsecutiveArtistCount acc t.artist < MAX_SAME_ARTIST_CONSECUTIVE
    · simp only [if_pos hc]
      exact ih _ (diversity_push_ok h hc)
    · simp only [if_neg hc]
      exact ih _ h

theorem diversityGo_sublist (l : List Track) :
    ∀ acc, ∃ s, diversityGo acc l = acc ++ s ∧ List.Sublist s l := by
  induction l with
  | nil => intro acc; exact ⟨[], by simp [diversityGo]⟩
  | cons t ts ih =>
    intro acc
    unfold diversityGo
    by_cases hc : getConsecutiveArtistCount acc t.artist < MAX_SAME_ARTIST_CONSECUTIVE
    · simp only [if_pos hc]
      obtain ⟨s, hs, hsub⟩ := ih (acc ++ [t])
      exact ⟨t :: s, by simpa [List.append_assoc] using hs, hsub.cons₂ t⟩
    · simp only [if_neg hc]
      obtain ⟨s, hs, hsub⟩ := ih acc
      exact ⟨s, hs, hsub.cons t⟩

theorem hasFourRun_take {l : List Track} {n : ℕ}
    (h : HasFourRun (l.take n)) : HasFourRun l := by
  obtain ⟨pre, t1, t2, t3, t4, suf, heq, h2, h3, h4⟩ := h
  refine ⟨pre, t1, t2, t3, t4, suf ++ l.drop n, ?_, h2, h3, h4⟩
  conv_lhs => rw [← List.take_append_drop n l]
  rw [heq]
  simp [List.append_assoc]

theorem noFourRun_of_not_hasFourRun {l : List Track}
    (h : ¬ HasFourRun l) : NoFourRun l := by
  intro i hlen hart
  apply h
  have e0 : l.drop i = l.get ⟨i, by omega⟩ :: l.drop (i + 1) :=
    List.drop_eq_getElem_cons (by omega)
  have e1 : l.drop (i + 1) = l.get ⟨i + 1, by omega⟩ :: l.drop (i + 2) :=
    List.drop_eq_getElem_cons (by omega)
  have e2 : l.drop (i + 2) = l.get ⟨i + 2, by omega⟩ :: l.drop (i + 3) :=
    List.drop_eq_getElem_cons (by omega)
  have e3 : l.drop (i + 3) = l.get ⟨i + 3, by omega⟩ :: l.drop (i + 4) :=
    List.drop_eq_getElem_cons (by omega)
  refine ⟨l.take i, l.get ⟨i, by omega⟩, l.get ⟨i + 1, by omega⟩,
    l.get ⟨i + 2, by omega⟩, l.get ⟨i + 3, by omega⟩, l.drop (i + 4), ?_,
    hart.1, hart.2.1, hart.2.2⟩
  conv_lhs => rw [← List.take_append_drop i l]
  rw [e0, e1, e2, e3]

/-- C5: `applyDiversityRules` returns a subsequence of its input, that
subsequence has no four consecutive positions sharing one artist, and the
list the pipeline finally returns — the diversity output truncated to the
limit — has none either. -/
theorem diversity_rules_sound (tracks : List Track) (limit : ℕ) :
    List.Sublist (applyDiversityRules tracks) tracks ∧
    NoFourRun (applyDiversityRules tracks) ∧
    NoFourRun (responseTracks tracks limit) := by
  have hnr : ¬ HasFourRun (applyDiversityRules tracks) :=
    diversityGo_no_run tracks [] not_hasFourRun_nil
  refine ⟨?_, noFourRun_of_not_hasFourRun hnr, ?_⟩
  · obtain ⟨s, hs, hsub⟩ := diversityGo_sublist tracks []
    simpa [applyDiversityRules, hs] using hsub
  · exact noFourRun_of_not_hasFourRun (fun h => hnr (hasFourRun_take h))

/-! ## JS object / Map machinery

JS plain objects and `Map`s preserve insertion order; `m[k] = v` and
`map.set(k, v)` overwrite in place.  Both are modelled as association
lists with in-place overwrite. -/

/-- `map.set(k, v)` / `obj[k] = v`: overwrite in place, else append. -/
def assocSet {β : Type} (m : List (String × β)) (k : String) (v : β) :
    List (String × β) :=
  match m with
  | [] => [(k, v)]
  | (k0, v0) :: rest => if k0 = k then (k, v) :: rest else (k0, v0) :: assocSet rest k v

/-- `map.get(k)` / `obj[k]`: `none` models `undefined`. -/
def assocGet {β : Type} (m : List (String × β)) (k : String) : Option β :=
  match m with
  | [] => none
  | (k0, v0) :: rest => if k0 = k then some v0 else assocGet rest k

theorem assocSet_mem {β : Type} {m : List (String × β)} {k : String} {v : β}
    {p : String × β} (h : p ∈ assocSet m k v) : p = (k, v) ∨ p ∈ m := by
  induction m with
  | nil => simpa [assocSet] using h
  | cons q rest ih =>
    obtain ⟨k0, v0⟩ := q
    rw [assocSet] at h
    by_cases hk : k0 = k
    · rw [if_pos hk] at h
      rcases List.mem_cons.mp h with rfl | hm
      · exact Or.inl rfl
      · exact Or.inr (List.mem_cons_of_mem _ hm)
    · rw [if_neg hk] at h
      rcases List.mem_cons.mp h with rfl | hm
      · exact Or.inr (List.mem_cons_self _ rest)
      · rcases ih hm with h1 | h1
        · exact Or.inl h1
        · exact Or.inr (List.mem_cons_of_mem _ h1)

theorem assocGet_mem {β : Type} {m : List (String × β)} {k : String} {v : β}
    (h : assocGet m k = some v) : (k, v) ∈ m := by
  induction m with
  | nil => simp [assocGet] at h
  | cons q rest ih =>
    obtain ⟨k0, v0⟩ := q
    rw [assocGet] at h
    by_cases hk : k0 = k
    · rw [if_pos hk] at h
      have hv : v0 = v := by injection h
      subst hv
      subst hk
      exact List.mem_cons_self _ _
    · rw [if_neg hk] at h
      exact List.mem_cons_of_mem _ (ih h)

/-! ## C8: limit default and validation
(src/packages/shared/src/schemas.ts lines 60-63,
src/apps/api/src/recommendations/recommendations.controller.ts,
src/apps/api/src/recommendations/recommendations.service.ts line 30) -/

/-- The controller's request construction:
`limit: limit ? parseInt(limit, 10) : 20` — a missing query parameter
yields the default 20, a supplied (numeric) one its parsed value. -/
def controllerLimit : Option ℤ → ℤ
  | none => 20
  | some n => n

/-- Zod validation of the limit field,
`z.number().int().min(1).max(50).optional().default(20)`: values outside
[1, 50] are rejected with a validation error, not clamped. -/
def limitSchemaParse (n : ℤ) : Except String ℤ :=
  if 1 ≤ n ∧ n ≤ 50 then .ok n else .error "validation"

/-- Limit handling of a `GET /recommendations` request: controller default
then schema validation. -/
def recommendationRequestLimit (q : Option ℤ) : Except String ℤ :=
  limitSchemaParse (controllerLimit q)

/-- `const limit = request.limit || 20` in the service (`0` is falsy). -/
def serviceLimit (n : ℤ) : ℤ := if n = 0 then 20 else n

/-- The track list returned by the service for a validated limit: the
pipeline output after diversity rules, truncated by
`tracks.slice(0, limit)`. -/
def serviceResponse (pipelineTracks : List Track) (n : ℤ) : List Track :=
  responseTracks pipelineTracks (serviceLimit n).toNat

/-- C8 counterexample: a supplied limit of 51 makes
`RecommendationRequestSchema.parse` throw a validation error — the request
fails instead of being clamped into [1, 50]. -/
theorem limit_out_of_range_cex :
    recommendationRequestLimit (some 51) = Except.error "validation" := by
  rfl

/-- C8 amended: a request with no limit runs the pipeline with limit 20; a
supplied limit is accepted exactly when it lies in [1, 50] (and is then
used as given — `request.limit || 20` never rewrites it since 0 is
rejected); an out-of-range limit fails validation with a 4xx instead of
being clamped; and the returned track list never exceeds the accepted
limit. -/
theorem limit_default_and_bound (q : Option ℤ) (pipelineTracks : List Track) :
    (q = none → recommendationRequestLimit q = .ok 20) ∧
    (∀ n, q = some n →
      (recommendationRequestLimit q = .ok n ↔ 1 ≤ n ∧ n ≤ 50)) ∧
    (∀ n, recommendationRequestLimit q = .ok n →
      serviceLimit n = n ∧ ((serviceResponse pipelineTracks n).length : ℤ) ≤ n) := by
  refine ⟨?_, ?_, ?_⟩
  · rintro rfl
    rfl
  · rintro n rfl
    unfold recommendationRequestLimit controllerLimit limitSchemaParse
    by_cases h : 1 ≤ n ∧ n ≤ 50
    · simp [h]
    · simp [h]
  · intro n hok
    have hr : 1 ≤ n ∧ n ≤ 50 := by
      unfold recommendationRequestLimit limitSchemaParse at hok
      by_cases h : 1 ≤ controllerLimit q ∧ controllerLimit q ≤ 50
      · rw [if_pos h] at hok
        have : controllerLimit q = n := by injection hok
        omega
      · rw [if_neg h] at hok
        exact absurd hok (by simp)
    have hne : n ≠ 0 := by omega
    refine ⟨by simp [serviceLimit, hne], ?_⟩
    have hlen : (serviceResponse pipelineTracks n).length ≤ (serviceLimit n).toNat := by
      unfold serviceResponse responseTracks
      exact List.length_take_le _ _
    have : serviceLimit n = n := by simp [serviceLimit, hne]
    rw [this] at hlen
    omega

/-- C8 witness: the concrete limit 30 is accepted and the response length
bound holds for it. -/
theorem limit_default_and_bound_witness :
    recommendationRequestLimit (some 30) = .ok 30 ∧
    ((serviceResponse [cexT1, cexT2] 30).length : ℤ) ≤ 30 :=
  ⟨by rfl,
    ((limit_default_and_bound (some 30) [cexT1, cexT2]).2.2 30 (by rfl)).2⟩

/-! ## C9: profile embedding well-formedness
(src/apps/api/src/users/users.service.ts lines 11-56 and 58-101; column
`user_profiles.profile_embedding vector(256)` per the schema migration) -/

/-- The raw driver value of a `vector(256)` column cell.  `arr` is the
already-decoded JS-array form (entries are JS numbers, `none` modelling a
non-finite one); `text` is the pgvector text serialization `[x1,…,xn]`,
whose components are always finite decimal literals. -/
inductive PgVectorCell
  | null
  | arr (xs : List (Option ℚ))
  | text (xs : List ℚ)
  deriving DecidableEq

/-- `UsersService.parseVector`.  On `null` (falsy) it returns undefined;
on an array it returns `value.map(Number)` unchanged; on the text form it
strips the brackets, splits on commas, parses each component (a finite
decimal literal parses to the number it denotes and passes the
`Number.isFinite` filter) and returns the list, or undefined when the
bracket interior is empty. -/
def parseVector : PgVectorCell → Option (List (Option ℚ))
  | .null => none
  | .arr xs => some xs
  | .text [] => none
  | .text (x :: xs) => some ((x :: xs).map some)

/-- The columns of a `user_profiles` row that the service reads. -/
structure ProfileRow where
  external_user_id : String
  preferred_genres : Option (List String)
  disliked_genres : Option (List String)
  profile_embedding : PgVectorCell

/-- The `UserProfile` object assembled by the service. -/
structure UserProfile where
  externalUserId : String
  preferredGenres : List String
  dislikedGenres : List String
  profileEmbedding : Option (List (Option ℚ))

/-- The object literal both `findOrCreateProfile` and `updatePreferences`
build from a fetched row. -/
def profileOfRow (r : ProfileRow) : UserProfile :=
  ⟨r.external_user_id, r.preferred_genres.getD [], r.disliked_genres.getD [],
    parseVector r.profile_embedding⟩

/-- `UsersService.findOrCreateProfile`: `existing` is the row returned by
the SELECT; when none exists the INSERT creates a row whose embedding
column is NULL and the returned object omits `profileEmbedding`. -/
def findOrCreateProfile (existing : Option ProfileRow) (userId : String) : UserProfile :=
  match existing with
  | some r => profileOfRow r
  | none => ⟨userId, [], [], none⟩

/-- `UsersService.updatePreferences`: `updated` is the row returned by the
UPDATE; when it is null the service falls back to `findOrCreateProfile`
(whose SELECT then sees `fallback`). -/
def updatePreferences (updated fallback : Option ProfileRow) (userId : String) :
    UserProfile :=
  match updated with
  | some r => profileOfRow r
  | none => findOrCreateProfile fallback userId

/-- What the `vector(256)` column type guarantees about a stored cell: it
is NULL or denotes exactly 256 finite floats (pgvector rejects NaN and
infinities), delivered by the driver in either form. -/
def ValidEmbeddingCell (c : PgVectorCell) : Prop :=
  c = .null ∨
    ∃ xs : List ℚ, xs.length = 256 ∧ (c = .arr (xs.map some) ∨ c = .text xs)

/-- A well-formed parsed embedding: absent, or exactly 256 finite entries. -/
def EmbeddingOk (e : Option (List (Option ℚ))) : Prop :=
  e = none ∨ ∃ l, e = some l ∧ l.length = 256 ∧ ∀ x ∈ l, x.isSome = true

theorem parseVector_valid {c : PgVectorCell} (h : ValidEmbeddingCell c) :
    EmbeddingOk (parseVector c) := by
  rcases h with rfl | ⟨xs, hlen, rfl | rfl⟩
  · exact Or.inl rfl
  · exact Or.inr ⟨xs.map some, rfl, by simpa using hlen, by simp⟩
  · cases xs with
    | nil => simp at hlen
    | cons a l =>
      exact Or.inr ⟨(a :: l).map some, rfl, by simpa using hlen, by simp⟩

/-- C9: for every stored profile row (whose embedding cell satisfies the
`vector(256)` column contract), the profiles returned by
`findOrCreateProfile` and by `updatePreferences` carry an embedding that
is either absent or a vector of exactly 256 finite floats. -/
theorem profile_embedding_well_formed (row fallback : Option ProfileRow)
    (userId : String)
    (h : ∀ r ∈ row, ValidEmbeddingCell r.profile_embedding)
    (hf : ∀ r ∈ fallback, ValidEmbeddingCell r.profile_embedding) :
    EmbeddingOk (findOrCreateProfile row userId).profileEmbedding ∧
    EmbeddingOk (updatePreferences row fallback userId).profileEmbedding := by
  constructor
  · cases row with
    | none => exact Or.inl rfl
    | some r =>
      exact parseVector_valid (h r (by simp))
  · cases row with
    | none =>
      cases fallback with
      | none => exact Or.inl rfl
      | some r =>
        exact parseVector_valid (hf r (by simp))
    | some r =>
      exact parseVector_valid (h r (by simp))

/-- A concrete stored row whose embedding cell holds 256 finite floats. -/
def row256 : ProfileRow :=
  ⟨"u", none, none, .text (List.replicate 256 (1 : ℚ))⟩

/-- C9 witness: the invariant instantiated on a concrete 256-entry row. -/
theorem profile_embedding_well_formed_witness :
    EmbeddingOk (findOrCreateProfile (some row256) "u").profileEmbedding ∧
    EmbeddingOk (updatePreferences (some row256) none "u").profileEmbedding :=
  profile_embedding_well_formed (some row256) none "u"
    (by
      intro r hr
      simp only [Option.mem_def, Option.some.injEq] at hr
      subst hr
      exact Or.inr ⟨List.replicate 256 (1 : ℚ), List.length_replicate 256 1, Or.inr rfl⟩)
    (by intro r hr; simp at hr)

/-! ## C2 and C10: personalized pipeline with interest-graph filter and
ML rerank (src/unnamed/part_005, HEAD side: lines 109-196, 325-338,
358-380) -/

/-- The interest-graph document as read by the recommendation service:
four string-to-score maps (JS objects, modelled as ordered association
lists). -/
structure InterestGraph where
  topArtists : List (String × ℚ)
  topGenres : List (String × ℚ)
  avoidArtists : List (String × ℚ)
  avoidGenres : List (String × ℚ)
  deriving DecidableEq, Repr

/-- The `AVOID_THRESHOLD` constant (0.6) of `applyInterestGraphFilters`. -/
def AVOID_THRESHOLD : ℚ := 3 / 5

/-- The test `typeof a === 'number' && a >= AVOID_THRESHOLD` on a map
lookup. -/
def avoidScoreHigh (m : List (String × ℚ)) (k : String) : Bool :=
  match assocGet m k with
  | some a => decide (AVOID_THRESHOLD ≤ a)
  | none => false

/-- The filter predicate of `applyInterestGraphFilters`: drop on a high
avoid score for the artist, then for the genre, else keep. -/
def avoidKeep (g : InterestGraph) (t : Track) : Bool :=
  !(avoidScoreHigh g.avoidArtists t.artist) && !(avoidScoreHigh g.avoidGenres t.genre)

/-- `RecommendationsService.applyInterestGraphFilters`. -/
def applyInterestGraphFilters (tracks : List Track) (g : InterestGraph) : List Track :=
  tracks.filter (avoidKeep g)

/-- One entry of the ML service's rerank reply (`RerankResult` in
src/apps/api/src/ml/ml-client.service.ts). -/
structure RerankResult where
  trackId : String
  score : ℚ
  deriving DecidableEq, Repr

/-- Construction of `new Map(tracks.map((t) => [t.id, t]))`. -/
def buildTrackMapGo (m : List (String × Track)) : List Track → List (String × Track)
  | [] => m
  | t :: ts => buildTrackMapGo (assocSet m t.id t) ts

/-- The id-to-track `Map` of `reorderTracksByRerank`. -/
def buildTrackMap (tracks : List Track) : List (String × Track) :=
  buildTrackMapGo [] tracks

/-- The first loop of `reorderTracksByRerank`: walk the rerank entries,
appending each referenced candidate once (`seen` guards duplicates). -/
def rerankLoop (m : List (String × Track)) :
    List RerankResult → List Track → List String → List Track × List String
  | [], ordered, seen => (ordered, seen)
  | item :: rest, ordered, seen =>
    match assocGet m item.trackId with
    | some t =>
      if t.id ∈ seen then rerankLoop m rest ordered seen
      else rerankLoop m rest (ordered ++ [t]) (seen ++ [t.id])
    | none => rerankLoop m rest ordered seen

/-- `RecommendationsService.reorderTracksByRerank`: the reranked tracks
first, then the leftover candidates in their original order. -/
def reorderTracksByRerank (tracks : List Track) (reranked : List RerankResult) :
    List Track :=
  let os := rerankLoop (buildTrackMap tracks) reranked [] []
  os.1 ++ tracks.filter (fun t => decide (t.id ∉ os.2))

/-- The candidate list of the embedding branch after the disliked-genre
filter (`if (profile?.dislikedGenres?.length)`) and the optional context
rerank. -/
def annCandidates (dislikedGenres : List String) (annTracks : List Track)
    (context : Option InteractionContext) : List Track :=
  match context with
  | some c =>
    rankByContext c (if dislikedGenres.isEmpty then annTracks
      else annTracks.filter (fun t => decide (t.genre ∉ dislikedGenres)))
  | none =>
    if dislikedGenres.isEmpty then annTracks
    else annTracks.filter (fun t => decide (t.genre ∉ dislikedGenres))

/-- The candidate list after the best-effort interest-graph filter: the
filter runs only when the env toggle is on and `getOrCompute` returned a
graph. -/
def igStage (dislikedGenres : List String) (annTracks : List Track)
    (context : Option InteractionContext) (igEnabled : Bool)
    (graph : Option InterestGraph) : List Track :=
  match (if igEnabled then graph else none) with
  | some gr => applyInterestGraphFilters (annCandidates dislikedGenres annTracks context) gr
  | none => annCandidates dislikedGenres annTracks context

/-- `RecommendationsService.personalizedRecommendations` (HEAD side of
part_005), with every I/O result passed in: `dislikedGenres` from the
profile loaded at the top, `updatedEmbedding` from the reloaded profile,
`annTracks` the pgvector ANN query result, `fallbackTracks` the
`genreBasedRecommendations` query result, `graph` the
`interestGraphService.getOrCompute` result, and `reranked` the
`mlClient.rerank` reply (`none` = null). -/
def personalizedRecommendations (dislikedGenres : List String)
    (updatedEmbedding : Option (List ℚ)) (annTracks fallbackTracks : List Track)
    (context : Option InteractionContext) (igEnabled : Bool)
    (graph : Option InterestGraph) (reranked : Option (List RerankResult)) :
    List Track :=
  match updatedEmbedding with
  | none => fallbackTracks
  | some _ =>
    match reranked with
    | some rs =>
      if rs.isEmpty
      then igStage dislikedGenres annTracks context igEnabled graph
      else reorderTracksByRerank
        (igStage dislikedGenres annTracks context igEnabled graph) rs
    | none => igStage dislikedGenres annTracks context igEnabled graph

/-! Membership and permutation lemmas for the rerank step. -/

theorem buildTrackMapGo_mem {p : String × Track} :
    ∀ (l : List Track) (m : List (String × Track)), p ∈ buildTrackMapGo m l →
      p ∈ m ∨ (p.2 ∈ l ∧ p.1 = p.2.id) := by
  intro l
  induction l with
  | nil => intro m h; exact Or.inl h
  | cons t ts ih =>
    intro m h
    rcases ih (assocSet m t.id t) h with h1 | h1
    · rcases assocSet_mem h1 with rfl | h2
      · exact Or.inr ⟨List.mem_cons_self _ _, rfl⟩
      · exact Or.inl h2
    · exact Or.inr ⟨List.mem_cons_of_mem t h1.1, h1.2⟩

theorem buildTrackMap_get {tracks : List Track} {k : String} {t : Track}
    (h : assocGet (buildTrackMap tracks) k = some t) : t ∈ tracks ∧ t.id = k := by
  rcases buildTrackMapGo_mem tracks [] (assocGet_mem h) with h1 | h1
  · simp at h1
  · exact ⟨h1.1, h1.2.symm⟩

theorem rerankLoop_mem {tracks : List Track} {x : Track} :
    ∀ (items : List RerankResult) (ordered : List Track) (seen : List String),
      (∀ y ∈ ordered, y ∈ tracks) →
      x ∈ (rerankLoop (buildTrackMap tracks) items ordered seen).1 → x ∈ tracks := by
  intro items
  induction items with
  | nil => intro ordered seen hord hx; exact hord x hx
  | cons item rest ih =>
    intro ordered seen hord hx
    rw [rerankLoop] at hx
    cases hget : assocGet (buildTrackMap tracks) item.trackId with
    | none =>
      simp only [hget] at hx
      exact ih ordered seen hord hx
    | some t =>
      simp only [hget] at hx
      by_cases hs : t.id ∈ seen
      · rw [if_pos hs] at hx
        exact ih ordered seen hord hx
      · rw [if_neg hs] at hx
        refine ih (ordered ++ [t]) (seen ++ [t.id]) ?_ hx
        intro y hy
        rcases List.mem_append.mp hy with hy | hy
        · exact hord y hy
        · rcases List.mem_singleton.mp hy with rfl
          exact (buildTrackMap_get hget).1

theorem reorderTracksByRerank_mem {tracks : List Track}
    {reranked : List RerankResult} {x : Track}
    (h : x ∈ reorderTracksByRerank tracks reranked) : x ∈ tracks := by
  rw [reorderTracksByRerank] at h
  rcases List.mem_append.mp h with h1 | h1
  · exact rerankLoop_mem reranked [] [] (by simp) h1
  · exact List.mem_of_mem_filter h1

theorem filter_not_seen_step {tracks : List Track}
    (hnd : (tracks.map Track.id).Nodup) {t0 : Track} {seen : List String}
    (ht : t0 ∈ tracks) (hs : t0.id ∉ seen) :
    (tracks.filter (fun t => decide (t.id ∉ seen))).Perm
      (t0 :: tracks.filter (fun t => decide (t.id ∉ seen ++ [t0.id]))) := by
  classical
  set L := tracks.filter (fun t => decide (t.id ∉ seen)) with hL
  have ht0L : t0 ∈ L := by
    rw [hL]
    exact List.mem_filter.mpr ⟨ht, by simpa using hs⟩
  obtain ⟨A, B, hAB⟩ := List.append_of_mem ht0L
  have hLnd : (L.map Track.id).Nodup :=
    hnd.sublist ((List.filter_sublist tracks).map Track.id)
  have hAid : ∀ a ∈ A, a.id ≠ t0.id := by
    intro a ha heq
    rw [hAB] at hLnd
    simp only [List.map_append, List.map_cons] at hLnd
    rcases List.nodup_append.mp hLnd with ⟨-, -, hdis⟩
    exact hdis (List.mem_map.mpr ⟨a, ha, heq⟩) (List.mem_cons_self _ _)
  have hBid : ∀ b ∈ B, b.id ≠ t0.id := by
    intro b hb heq
    rw [hAB] at hLnd
    simp only [List.map_append, List.map_cons] at hLnd
    rcases List.nodup_append.mp hLnd with ⟨-, hcons, -⟩
    rcases List.nodup_cons.mp hcons with ⟨hnotmem, -⟩
    exact hnotmem (heq ▸ List.mem_map.mpr ⟨b, hb, rfl⟩)
  have hfilter2 : tracks.filter (fun t => decide (t.id ∉ seen ++ [t0.id])) =
      L.filter (fun t => decide (t.id ≠ t0.id)) := by
    rw [hL, List.filter_filter]
    apply List.filter_congr
    intro x _
    by_cases h1 : x.id ∈ seen <;> by_cases h2 : x.id = t0.id <;>
      simp [h1, h2, List.mem_append]
  have hfilterL : L.filter (fun t => decide (t.id ≠ t0.id)) = A ++ B := by
    rw [hAB, List.filter_append, List.filter_cons]
    have h0 : (decide (t0.id ≠ t0.id)) = false := by simp
    rw [h0]
    simp only [Bool.false_eq_true, if_false]
    rw [List.filter_eq_self.mpr, List.filter_eq_self.mpr]
    · intro b hb; simpa using hBid b hb
    · intro a ha; simpa using hAid a ha
  rw [hfilter2, hfilterL, hAB]
  exact List.perm_middle

theorem rerankLoop_perm_inv {tracks : List Track}
    (hnd : (tracks.map Track.id).Nodup) :
    ∀ (items : List RerankResult) (ordered : List Track) (seen : List String),
      (ordered ++ tracks.filter (fun t => decide (t.id ∉ seen))).Perm tracks →
      ((rerankLoop (buildTrackMap tracks) items ordered seen).1 ++
        tracks.filter (fun t =>
          decide (t.id ∉ (rerankLoop (buildTrackMap tracks) items ordered seen).2))).Perm
        tracks := by
  intro items
  induction items with
  | nil => intro ordered seen hinv; exact hinv
  | cons item rest ih =>
    intro ordered seen hinv
    rw [rerankLoop]
    cases hget : assocGet (buildTrackMap tracks) item.trackId with
    | none =>
      simp only [hget]
      exact ih ordered seen hinv
    | some t =>
      simp only [hget]
      by_cases hs : t.id ∈ seen
      · simp only [if_pos hs]
        exact ih ordered seen hinv
      · simp only [if_neg hs]
        apply ih (ordered ++ [t]) (seen ++ [t.id])
        have hstep := filter_not_seen_step hnd (buildTrackMap_get hget).1 hs
        calc (ordered ++ [t]) ++
              tracks.filter (fun x => decide (x.id ∉ seen ++ [t.id]))
            = ordered ++ (t :: tracks.filter
                (fun x => decide (x.id ∉ seen ++ [t.id]))) := by
              simp [List.append_assoc]
          _ |>.Perm (ordered ++ tracks.filter (fun x => decide (x.id ∉ seen))) :=
              List.Perm.append_left ordered hstep.symm
          _ |>.Perm tracks := hinv

/-- C10 counterexample track: id "a", title "x". -/
def tDupA : Track := ⟨"a", "x", "ar", "g", none⟩

/-- C10 counterexample track sharing the id "a", title "y". -/
def tDupB : Track := ⟨"a", "y", "ar", "g", none⟩

/-- C10 counterexample: with two candidates sharing one track ID and a
rerank entry for that ID, `reorderTracksByRerank` returns only the later
candidate — the earlier one is dropped, so the result is not a
permutation of the candidate list. -/
theorem reorder_by_rerank_not_perm_cex :
    ¬ (reorderTracksByRerank [tDupA, tDupB] [⟨"a", 1⟩]).Perm [tDupA, tDupB] := by
  intro h
  have he : reorderTracksByRerank [tDupA, tDupB] [⟨"a", 1⟩] = [tDupB] := by rfl
  rw [he] at h
  have := h.length_eq
  simp at this

/-- C10 amended: provided the candidate list has pairwise-distinct track
IDs (which SELECTs keyed by the primary key guarantee),
`reorderTracksByRerank` returns a permutation of the candidates: rerank
entries whose ID is not among the candidates are ignored, duplicate
rerank entries are ignored, and the leftover candidates are appended in
their original order — nothing is added, dropped, or duplicated. -/
theorem reorder_by_rerank_perm (tracks : List Track)
    (reranked : List RerankResult) (hnd : (tracks.map Track.id).Nodup) :
    (reorderTracksByRerank tracks reranked).Perm tracks := by
  have base : ((([] : List Track) ++
      tracks.filter (fun t => decide (t.id ∉ ([] : List String))))).Perm tracks := by
    simp
  have h := rerankLoop_perm_inv hnd reranked [] [] base
  simpa [reorderTracksByRerank] using h

/-- C10 witness: the permutation property at a concrete two-candidate list
with distinct IDs. -/
theorem reorder_by_rerank_perm_witness :
    (reorderTracksByRerank [cexT1, cexT2] [⟨"t2", 1⟩]).Perm [cexT1, cexT2] :=
  reorder_by_rerank_perm [cexT1, cexT2] [⟨"t2", 1⟩] (by decide)

/-! ## Theorems for C2 -/

/-- The track of the C2 counterexample, by an artist with avoid score 1. -/
def tAvoid : Track := ⟨"tx", "X", "AX", "metal", none⟩

/-- The interest graph of the C2 counterexample. -/
def gAvoid : InterestGraph := ⟨[], [], [("AX", 1)], []⟩

/-- C2 counterexample: a personalized request of a user whose reloaded
profile has NO embedding takes the genre-based fallback branch, which
never consults the interest graph: with the user's graph available and
holding avoid score 1 for artist "AX", the returned list still contains a
track by "AX" (1 ≥ 0.6). -/
theorem ig_avoid_fallback_cex :
    tAvoid ∈ responseTracks
      (personalizedRecommendations [] none [] [tAvoid] none true (some gAvoid) none) 20 ∧
    assocGet gAvoid.avoidArtists tAvoid.artist = some 1 ∧
    AVOID_THRESHOLD ≤ 1 := by
  refine ⟨?_, rfl, by norm_num [AVOID_THRESHOLD]⟩
  have he : responseTracks
      (personalizedRecommendations [] none [] [tAvoid] none true (some gAvoid) none) 20 =
      [tAvoid] := by rfl
  rw [he]
  exact List.mem_singleton.mpr rfl

theorem avoidKeep_sound {g : InterestGraph} {t : Track}
    (h : avoidKeep g t = true) :
    (∀ a, assocGet g.avoidArtists t.artist = some a → a < AVOID_THRESHOLD) ∧
    (∀ v, assocGet g.avoidGenres t.genre = some v → v < AVOID_THRESHOLD) := by
  rw [avoidKeep, Bool.and_eq_true] at h
  constructor
  · intro a ha
    have h1 := h.1
    rw [avoidScoreHigh, ha] at h1
    simp only [Bool.not_eq_true', decide_eq_false_iff_not] at h1
    exact lt_of_not_le h1
  · intro v hv
    have h2 := h.2
    rw [avoidScoreHigh, hv] at h2
    simp only [Bool.not_eq_true', decide_eq_false_iff_not] at h2
    exact lt_of_not_le h2

/-- C2 amended: on the embedding (ANN) branch — reloaded profile embedding
present, interest graph enabled and fetched —  no track of the finally
returned list has an artist or genre whose avoid score in the graph is
≥ 0.6; this survives the disliked filter, the context rerank, the ML
rerank reorder, the diversity rules and the final truncation.  (The
genre-based fallback branch does not consult the graph.) -/
theorem ig_avoid_filter_sound (dislikedGenres : List String) (e : List ℚ)
    (annTracks fallbackTracks : List Track) (context : Option InteractionContext)
    (g : InterestGraph) (reranked : Option (List RerankResult)) (limit : ℕ)
    (t : Track)
    (ht : t ∈ responseTracks
      (personalizedRecommendations dislikedGenres (some e) annTracks fallbackTracks
        context true (some g) reranked) limit) :
    (∀ a, assocGet g.avoidArtists t.artist = some a → a < AVOID_THRESHOLD) ∧
    (∀ v, assocGet g.avoidGenres t.genre = some v → v < AVOID_THRESHOLD) := by
  have hmem_out : t ∈ personalizedRecommendations dislikedGenres (some e) annTracks
      fallbackTracks context true (some g) reranked := by
    have hsub1 : List.Sublist (responseTracks (personalizedRecommendations
        dislikedGenres (some e) annTracks fallbackTracks context true (some g)
        reranked) limit) (applyDiversityRules (personalizedRecommendations
        dislikedGenres (some e) annTracks fallbackTracks context true (some g)
        reranked)) := List.take_sublist _ _
    have hsub2 : List.Sublist (applyDiversityRules (personalizedRecommendations
        dislikedGenres (some e) annTracks fallbackTracks context true (some g)
        reranked)) (personalizedRecommendations dislikedGenres (some e) annTracks
        fallbackTracks context true (some g) reranked) := by
      obtain ⟨s, hs, hsubl⟩ := diversityGo_sublist (personalizedRecommendations
        dislikedGenres (some e) annTracks fallbackTracks context true (some g)
        reranked) []
      simpa [applyDiversityRules, hs] using hsubl
    exact (hsub1.trans hsub2).subset ht
  have hkeep : avoidKeep g t = true := by
    cases reranked with
    | none =>
      exact List.of_mem_filter
        (show t ∈ List.filter (avoidKeep g)
          (annCandidates dislikedGenres annTracks context) from hmem_out)
    | some rs =>
      by_cases hrs : rs.isEmpty
      · have h2 : t ∈ (if rs.isEmpty
            then List.filter (avoidKeep g)
              (annCandidates dislikedGenres annTracks context)
            else reorderTracksByRerank (List.filter (avoidKeep g)
              (annCandidates dislikedGenres annTracks context)) rs) := hmem_out
        rw [if_pos hrs] at h2
        exact List.of_mem_filter h2
      · have h2 : t ∈ (if rs.isEmpty
            then List.filter (avoidKeep g)
              (annCandidates dislikedGenres annTracks context)
            else reorderTracksByRerank (List.filter (avoidKeep g)
              (annCandidates dislikedGenres annTracks context)) rs) := hmem_out
        rw [if_neg hrs] at h2
        exact List.of_mem_filter (reorderTracksByRerank_mem h2)
  exact avoidKeep_sound hkeep

/-- Graph for the C2 witness: one below-threshold avoid entry for an
artist not in the candidate list. -/
def gWit : InterestGraph := ⟨[], [], [("Z", 1)], []⟩

/-- C2 witness: the avoid-soundness applied on a concrete embedding-branch
request whose returned list contains `cexT1`. -/
theorem ig_avoid_filter_sound_witness :
    (∀ a, assocGet gWit.avoidArtists cexT1.artist = some a → a < AVOID_THRESHOLD) ∧
    (∀ v, assocGet gWit.avoidGenres cexT1.genre = some v → v < AVOID_THRESHOLD) :=
  ig_avoid_filter_sound [] [1] [cexT1] [] none gWit none 20 cexT1 (by decide)

/-! ## C6: interest-graph computation
(src/apps/api/src/interest-graph/interest-graph.service.ts lines 64-144) -/

/-- A joined row of the compute query: event type (as the raw string the
driver returns), the track's artist and genre (NULL-able columns). -/
structure IgRow where
  event_type : String
  artist : Option String
  genre : Option String
  deriving DecidableEq, Repr

/-- The weight table; `weights[r.event_type] ?? 0` yields 0 for any other
event type. -/
def igWeight (e : String) : ℚ :=
  if e = "LIKE" then 2
  else if e = "PLAY" then 1
  else if e = "SKIP" then -1
  else if e = "DISLIKE" then -2
  else 0

/-- `map.set(key, (map.get(key) || 0) + w)`. -/
def bumpScore (m : List (String × ℚ)) (k : String) (w : ℚ) : List (String × ℚ) :=
  assocSet m k ((assocGet m k).getD 0 + w)

/-- The accumulation loop of `compute` projected on one axis
(`if (r.artist) artistScore.set(...)`; a NULL or empty string is falsy
and contributes nothing).  The JS loop feeds both axes in one pass; since
each axis has its own map, one pass per axis accumulates identically. -/
def scoreAxisGo (f : IgRow → Option String) (m : List (String × ℚ)) :
    List IgRow → List (String × ℚ)
  | [] => m
  | r :: rest =>
    match f r with
    | some a =>
      if a = "" then scoreAxisGo f m rest
      else scoreAxisGo f (bumpScore m a (igWeight r.event_type)) rest
    | none => scoreAxisGo f m rest

/-- The per-artist raw score map of `compute`. -/
def artistScores (rows : List IgRow) : List (String × ℚ) :=
  scoreAxisGo IgRow.artist [] rows

/-- The per-genre raw score map of `compute`. -/
def genreScores (rows : List IgRow) : List (String × ℚ) :=
  scoreAxisGo IgRow.genre [] rows

/-- `Number((val / max).toFixed(4))`: round to four decimal places (ties
round up, as ECMAScript picks the larger candidate). -/
def round4 (q : ℚ) : ℚ := (round (q * 10000) : ℤ) / 10000

/-- `sorted.length ? Math.max(...sorted.map(([, v]) => v)) : 0`. -/
def listMax : List ℚ → ℚ
  | [] => 0
  | v :: vs => vs.foldl max v

/-- The emission loop of `normalizeTop` over the sorted-and-truncated
entries `S`: divide by the maximum kept value and round, or emit 0 for
everything when that maximum is not positive (`if (!max || max <= 0)`). -/
def normCore (S : List (String × ℚ)) : List (String × ℚ) :=
  S.map (fun p =>
    (p.1, if listMax (S.map Prod.snd) ≤ 0 then 0
          else round4 (p.2 / listMax (S.map Prod.snd))))

/-- `InterestGraphService.normalizeTop`: stable sort by value descending
(the entries are finite, so the `Number.isFinite` filter keeps them all),
keep the top `k`, then normalize via `normCore`. -/
def normalizeTop (m : List (String × ℚ)) (k : ℕ) : List (String × ℚ) :=
  normCore ((sortDesc (fun p => p.2) m).take k)

/-- The entries handed to `normalizeTop` for an avoid map: the raw
entries with a negative score, in absolute value. -/
def avoidInput (raw : List (String × ℚ)) : List (String × ℚ) :=
  (raw.filter (fun p => decide (p.2 < 0))).map (fun p => (p.1, |p.2|))

/-- `InterestGraphService.compute` (the map-building part; the version,
generator tag, timestamps are constants).  Returns `none` when the query
yields no rows. -/
def computeInterestGraph (rows : List IgRow) : Option InterestGraph :=
  if rows.isEmpty then none
  else some
    ⟨normalizeTop (artistScores rows) 20,
     normalizeTop (genreScores rows) 20,
     normalizeTop (avoidInput (artistScores rows)) 20,
     normalizeTop (avoidInput (genreScores rows)) 20⟩

/-- The max-normalization law for one emitted map: empty, or it has an
entry of value 0 or 1 that dominates every entry. -/
def MaxNorm (m : List (String × ℚ)) : Prop :=
  m = [] ∨ ∃ p ∈ m, (p.2 = 0 ∨ p.2 = 1) ∧ ∀ q ∈ m, q.2 ≤ p.2

/-! Arithmetic lemmas for `round4` and `listMax`. -/

theorem round4_mono {a b : ℚ} (h : a ≤ b) : round4 a ≤ round4 b := by
  unfold round4
  have h2 : round (a * 10000) ≤ round (b * 10000) := by
    rw [round_eq, round_eq]
    apply Int.floor_mono
    nlinarith
  have h3 : ((round (a * 10000) : ℤ) : ℚ) ≤ ((round (b * 10000) : ℤ) : ℚ) := by
    exact_mod_cast h2
  linarith

theorem round4_one : round4 1 = 1 := by
  unfold round4
  rw [one_mul]
  rw [show ((10000 : ℚ)) = ((10000 : ℤ) : ℚ) by norm_num, round_intCast]
  norm_num

theorem round4_zero : round4 0 = 0 := by
  unfold round4
  rw [zero_mul, round_zero]
  norm_num

theorem round4_neg_one : round4 (-1) = -1 := by
  unfold round4
  rw [show ((-1 : ℚ) * 10000) = ((-10000 : ℤ) : ℚ) by norm_num, round_intCast]
  norm_num

theorem foldl_max_eq {v : ℚ} : ∀ {vs : List ℚ}, (∀ w ∈ vs, w ≤ v) →
    vs.foldl max v = v := by
  intro vs
  induction vs with
  | nil => intro _; rfl
  | cons w ws ih =>
    intro h
    have hw : w ≤ v := h w (List.mem_cons_self _ _)
    rw [List.foldl_cons, max_eq_left hw]
    exact ih (fun x hx => h x (List.mem_cons_of_mem _ hx))

theorem listMax_head {v : ℚ} {vs : List ℚ} (h : ∀ w ∈ vs, w ≤ v) :
    listMax (v :: vs) = v := by
  rw [listMax]
  exact foldl_max_eq h

theorem sorted_le_listMax {S : List (String × ℚ)}
    (hpair : S.Pairwise (fun a b => b.2 ≤ a.2)) :
    ∀ q ∈ S, q.2 ≤ listMax (S.map Prod.snd) := by
  cases S with
  | nil => intro q hq; simp at hq
  | cons p0 ps =>
    rcases List.pairwise_cons.mp hpair with ⟨h0, -⟩
    have hmax : listMax ((p0 :: ps).map Prod.snd) = p0.2 := by
      rw [List.map_cons]
      exact listMax_head (by
        intro w hw
        obtain ⟨q, hq, rfl⟩ := List.mem_map.mp hw
        exact h0 q hq)
    intro q hq
    rw [hmax]
    rcases List.mem_cons.mp hq with rfl | hq
    · exact le_refl _
    · exact h0 q hq

theorem normCore_bounded {S : List (String × ℚ)}
    (hpair : S.Pairwise (fun a b => b.2 ≤ a.2)) :
    ∀ p ∈ normCore S, p.2 ≤ 1 := by
  intro p hp
  obtain ⟨q, hq, rfl⟩ := List.mem_map.mp hp
  by_cases hmx : listMax (S.map Prod.snd) ≤ 0
  · simp [hmx]
  · have hpos : 0 < listMax (S.map Prod.snd) := lt_of_not_le hmx
    have hle : q.2 ≤ listMax (S.map Prod.snd) := sorted_le_listMax hpair q hq
    have h1 : q.2 / listMax (S.map Prod.snd) ≤ 1 := (div_le_one hpos).mpr hle
    simpa [hmx] using (round4_mono h1).trans (le_of_eq round4_one)

theorem normCore_maxnorm {S : List (String × ℚ)}
    (hpair : S.Pairwise (fun a b => b.2 ≤ a.2)) : MaxNorm (normCore S) := by
  cases hS : S with
  | nil => left; simp [normCore, hS]
  | cons p0 ps =>
    subst hS
    right
    rcases List.pairwise_cons.mp hpair with ⟨h0, -⟩
    have hmax : listMax ((p0 :: ps).map Prod.snd) = p0.2 := by
      rw [List.map_cons]
      exact listMax_head (by
        intro w hw
        obtain ⟨q, hq, rfl⟩ := List.mem_map.mp hw
        exact h0 q hq)
    by_cases hmx : listMax ((p0 :: ps).map Prod.snd) ≤ 0
    · refine ⟨(p0.1, 0), ?_, Or.inl rfl, ?_⟩
      · rw [normCore]
        refine List.mem_map.mpr ⟨p0, List.mem_cons_self _ _, ?_⟩
        rw [if_pos hmx]
      · intro q hq
        rw [normCore] at hq
        obtain ⟨r, hr, rfl⟩ := List.mem_map.mp hq
        simp only [if_pos hmx]
        exact le_refl 0
    · have hpos : 0 < listMax ((p0 :: ps).map Prod.snd) := lt_of_not_le hmx
      have hne : listMax ((p0 :: ps).map Prod.snd) ≠ 0 := ne_of_gt hpos
      have hhead : round4 (p0.2 / listMax ((p0 :: ps).map Prod.snd)) = 1 := by
        rw [hmax] at hne ⊢
        rw [div_self hne, round4_one]
      refine ⟨(p0.1, 1), ?_, Or.inr rfl, ?_⟩
      · rw [normCore]
        refine List.mem_map.mpr ⟨p0, List.mem_cons_self _ _, ?_⟩
        simp only [if_neg hmx, hhead]
      · intro q hq
        exact normCore_bounded hpair q hq

theorem normCore_nonneg {S : List (String × ℚ)}
    (hpos : ∀ p ∈ S, 0 ≤ p.2) : ∀ p ∈ normCore S, 0 ≤ p.2 := by
  intro p hp
  obtain ⟨q, hq, rfl⟩ := List.mem_map.mp hp
  by_cases hmx : listMax (S.map Prod.snd) ≤ 0
  · simp [hmx]
  · have hmx0 : (0 : ℚ) ≤ listMax (S.map Prod.snd) := le_of_lt (lt_of_not_le hmx)
    have hdiv : 0 ≤ q.2 / listMax (S.map Prod.snd) :=
      div_nonneg (hpos q hq) hmx0
    simpa [hmx] using (le_of_eq round4_zero.symm).trans (round4_mono hdiv)

theorem normCore_keys {S : List (String × ℚ)} :
    ∀ p ∈ normCore S, ∃ v, (p.1, v) ∈ S := by
  intro p hp
  obtain ⟨q, hq, rfl⟩ := List.mem_map.mp hp
  exact ⟨q.2, hq⟩

theorem normalizeTop_pairwise (m : List (String × ℚ)) (k : ℕ) :
    ((sortDesc (fun p => p.2) m).take k).Pairwise (fun a b => b.2 ≤ a.2) :=
  List.Pairwise.sublist (List.take_sublist _ _) (sortDesc_pairwise _ m)

theorem normalizeTop_length (m : List (String × ℚ)) (k : ℕ) :
    (normalizeTop m k).length ≤ k := by
  rw [normalizeTop, normCore, List.length_map]
  exact List.length_take_le _ _

theorem normalizeTop_bounded (m : List (String × ℚ)) (k : ℕ) :
    ∀ p ∈ normalizeTop m k, p.2 ≤ 1 :=
  normCore_bounded (normalizeTop_pairwise m k)

theorem normalizeTop_maxnorm (m : List (String × ℚ)) (k : ℕ) :
    MaxNorm (normalizeTop m k) :=
  normCore_maxnorm (normalizeTop_pairwise m k)

theorem normalizeTop_keys (m : List (String × ℚ)) (k : ℕ) :
    ∀ p ∈ normalizeTop m k, ∃ v, (p.1, v) ∈ m := by
  intro p hp
  obtain ⟨v, hv⟩ := normCore_keys p hp
  refine ⟨v, ?_⟩
  have hmem := (List.take_sublist k (sortDesc (fun p => p.2) m)).subset hv
  exact (sortDesc_perm (fun p => p.2) m).subset hmem

theorem normalizeTop_nonneg (m : List (String × ℚ)) (k : ℕ)
    (hpos : ∀ p ∈ m, 0 ≤ p.2) : ∀ p ∈ normalizeTop m k, 0 ≤ p.2 := by
  apply normCore_nonneg
  intro p hp
  have hmem := (List.take_sublist k (sortDesc (fun p => p.2) m)).subset hp
  exact hpos p ((sortDesc_perm (fun p => p.2) m).subset hmem)

/-! Key-uniqueness of the accumulated score maps. -/

theorem assocSet_keys {β : Type} (m : List (String × β)) (k : String) (v : β) :
    (assocSet m k v).map Prod.fst =
      if k ∈ m.map Prod.fst then m.map Prod.fst else m.map Prod.fst ++ [k] := by
  induction m with
  | nil => simp [assocSet]
  | cons q rest ih =>
    obtain ⟨k0, v0⟩ := q
    rw [assocSet]
    by_cases hk : k0 = k
    · subst hk
      simp
    · rw [if_neg hk]
      simp only [List.map_cons]
      rw [ih]
      by_cases hmem : k ∈ rest.map Prod.fst
      · rw [if_pos hmem, if_pos (List.mem_cons_of_mem _ hmem)]
      · rw [if_neg hmem, if_neg ?_]
        · simp
        · simp only [List.mem_cons]
          rintro (rfl | hc)
          · exact hk rfl
          · exact hmem hc

theorem keys_nodup_assocSet {β : Type} {m : List (String × β)} (k : String) (v : β)
    (h : (m.map Prod.fst).Nodup) : ((assocSet m k v).map Prod.fst).Nodup := by
  rw [assocSet_keys]
  by_cases hmem : k ∈ m.map Prod.fst
  · rw [if_pos hmem]; exact h
  · rw [if_neg hmem]
    rw [List.nodup_append]
    refine ⟨h, List.nodup_singleton k, ?_⟩
    intro a ha hb
    rw [List.mem_singleton] at hb
    subst hb
    exact hmem ha

theorem scoreAxisGo_keys_nodup (f : IgRow → Option String) :
    ∀ (rows : List IgRow) (m : List (String × ℚ)),
      (m.map Prod.fst).Nodup → ((scoreAxisGo f m rows).map Prod.fst).Nodup := by
  intro rows
  induction rows with
  | nil => intro m h; exact h
  | cons r rest ih =>
    intro m h
    rw [scoreAxisGo]
    cases hf : f r with
    | none => simp only [hf]; exact ih m h
    | some a =>
      simp only [hf]
      by_cases ha : a = ""
      · rw [if_pos ha]; exact ih m h
      · rw [if_neg ha]
        exact ih _ (keys_nodup_assocSet _ _ h)

theorem assocGet_of_mem_nodup {β : Type} {m : List (String × β)} {k : String}
    {v : β} (hnd : (m.map Prod.fst).Nodup) (hm : (k, v) ∈ m) :
    assocGet m k = some v := by
  induction m with
  | nil => simp at hm
  | cons q rest ih =>
    obtain ⟨k0, v0⟩ := q
    simp only [List.map_cons] at hnd
    rcases List.nodup_cons.mp hnd with ⟨hk0, hrest⟩
    rcases List.mem_cons.mp hm with heq | hmem
    · injection heq with h1 h2
      subst h1
      subst h2
      rw [assocGet, if_pos rfl]
    · have hk : k0 ≠ k := by
        rintro rfl
        exact hk0 (List.mem_map.mpr ⟨(k0, v), hmem, rfl⟩)
      rw [assocGet, if_neg hk]
      exact ih hrest hmem

theorem avoidInput_nonneg {raw : List (String × ℚ)} :
    ∀ q ∈ avoidInput raw, 0 ≤ q.2 := by
  intro q hq
  obtain ⟨p, -, rfl⟩ := List.mem_map.mp hq
  exact abs_nonneg p.2

theorem avoidInput_mem {raw : List (String × ℚ)} {q : String × ℚ}
    (h : q ∈ avoidInput raw) : ∃ r, (q.1, r) ∈ raw ∧ r < 0 := by
  obtain ⟨p, hp, rfl⟩ := List.mem_map.mp h
  obtain ⟨k0, v0⟩ := p
  refine ⟨v0, List.mem_of_mem_filter hp, ?_⟩
  have := List.of_mem_filter hp
  simpa using this

theorem avoid_map_sound {raw : List (String × ℚ)}
    (hnd : (raw.map Prod.fst).Nodup) :
    ∀ p ∈ normalizeTop (avoidInput raw) 20,
      0 ≤ p.2 ∧ ∃ r, assocGet raw p.1 = some r ∧ r < 0 := by
  intro p hp
  refine ⟨normalizeTop_nonneg _ _ avoidInput_nonneg p hp, ?_⟩
  obtain ⟨v, hv⟩ := normalizeTop_keys _ _ p hp
  obtain ⟨r, hr, hrneg⟩ := avoidInput_mem hv
  exact ⟨r, assocGet_of_mem_nodup hnd hr, hrneg⟩

/-- C6 amended: every map computed by the interest-graph engine has at
most 20 entries and no value above 1; the avoid maps additionally have
values in [0, 1] and contain only keys whose raw accumulated score was
negative; and in every nonempty map the maximal value is 0 (no positive
mass among the kept entries) or exactly 1.  Top-map values with a
negative raw score alongside positive mass are emitted negative, so the
claimed lower bound 0 holds only for the avoid maps. -/
theorem interest_graph_invariants (rows : List IgRow) (g : InterestGraph)
    (h : computeInterestGraph rows = some g) :
    (g.topArtists.length ≤ 20 ∧ g.topGenres.length ≤ 20 ∧
     g.avoidArtists.length ≤ 20 ∧ g.avoidGenres.length ≤ 20) ∧
    ((∀ p ∈ g.topArtists, p.2 ≤ 1) ∧ (∀ p ∈ g.topGenres, p.2 ≤ 1) ∧
     (∀ p ∈ g.avoidArtists, 0 ≤ p.2 ∧ p.2 ≤ 1) ∧
     (∀ p ∈ g.avoidGenres, 0 ≤ p.2 ∧ p.2 ≤ 1)) ∧
    (MaxNorm g.topArtists ∧ MaxNorm g.topGenres ∧
     MaxNorm g.avoidArtists ∧ MaxNorm g.avoidGenres) ∧
    ((∀ p ∈ g.avoidArtists,
        ∃ r, assocGet (artistScores rows) p.1 = some r ∧ r < 0) ∧
     (∀ p ∈ g.avoidGenres,
        ∃ r, assocGet (genreScores rows) p.1 = some r ∧ r < 0)) := by
  have hganame : g = ⟨normalizeTop (artistScores rows) 20,
      normalizeTop (genreScores rows) 20,
      normalizeTop (avoidInput (artistScores rows)) 20,
      normalizeTop (avoidInput (genreScores rows)) 20⟩ := by
    rw [computeInterestGraph] at h
    by_cases hr : rows.isEmpty
    · rw [if_pos hr] at h
      exact absurd h (by simp)
    · rw [if_neg hr] at h
      injection h with h1
      exact h1.symm
  subst hganame
  have hndA : ((artistScores rows).map Prod.fst).Nodup :=
    scoreAxisGo_keys_nodup IgRow.artist rows [] (by simp)
  have hndG : ((genreScores rows).map Prod.fst).Nodup :=
    scoreAxisGo_keys_nodup IgRow.genre rows [] (by simp)
  refine ⟨⟨normalizeTop_length _ _, normalizeTop_length _ _,
      normalizeTop_length _ _, normalizeTop_length _ _⟩,
    ⟨normalizeTop_bounded _ _, normalizeTop_bounded _ _, ?_, ?_⟩,
    ⟨normalizeTop_maxnorm _ _, normalizeTop_maxnorm _ _,
      normalizeTop_maxnorm _ _, normalizeTop_maxnorm _ _⟩,
    ⟨fun p hp => (avoid_map_sound hndA p hp).2,
      fun p hp => (avoid_map_sound hndG p hp).2⟩⟩
  · intro p hp
    exact ⟨(avoid_map_sound hndA p hp).1, normalizeTop_bounded _ _ p hp⟩
  · intro p hp
    exact ⟨(avoid_map_sound hndG p hp).1, normalizeTop_bounded _ _ p hp⟩

/-- The interaction history of the C6 counterexample: one LIKE for artist
A and one DISLIKE for artist B. -/
def cexRows6 : List IgRow :=
  [⟨"LIKE", some "A", some "rock"⟩, ⟨"DISLIKE", some "B", some "pop"⟩]

/-- C6 counterexample: with raw scores A = +2 and B = −2 the emitted
`topArtists` map holds B at −2/2 = −1 — a value outside [0, 1] — because
`normalizeTop` keeps negative entries when fewer than 20 exist and divides
them by the positive maximum. -/
theorem ig_top_value_negative_cex :
    (computeInterestGraph cexRows6).bind (fun g => assocGet g.topArtists "B") =
      some (-1) ∧ (-1 : ℚ) < 0 := by
  refine ⟨?_, by norm_num⟩
  have hA : artistScores cexRows6 = [("A", (2 : ℚ)), ("B", (-2 : ℚ))] := by
    simp [artistScores, scoreAxisGo, cexRows6, bumpScore, assocGet,
      assocSet, igWeight]
  have hs : sortDesc (fun p : String × ℚ => p.2)
      [("A", (2 : ℚ)), ("B", (-2 : ℚ))] = [("A", 2), ("B", -2)] := by
    norm_num [sortDesc, sortDescGo, insertDesc]
  have hmx : listMax ([("A", (2 : ℚ)), ("B", (-2 : ℚ))].map Prod.snd) = 2 := by
    rw [List.map_cons, List.map_cons, List.map_nil]
    rw [listMax, List.foldl_cons, List.foldl_nil]
    norm_num
  have hnorm : normalizeTop [("A", (2 : ℚ)), ("B", (-2 : ℚ))] 20 =
      [("A", 1), ("B", -1)] := by
    rw [normalizeTop, hs]
    rw [show ([("A", (2 : ℚ)), ("B", (-2 : ℚ))].take 20) =
      [("A", (2 : ℚ)), ("B", (-2 : ℚ))] from rfl]
    rw [normCore, hmx]
    have hc : ¬((2 : ℚ) ≤ 0) := by norm_num
    simp [hc, round4_one, round4_neg_one]
  rw [computeInterestGraph, if_neg (by simp [cexRows6])]
  rw [Option.some_bind]
  rw [show (⟨normalizeTop (artistScores cexRows6) 20,
      normalizeTop (genreScores cexRows6) 20,
      normalizeTop (avoidInput (artistScores cexRows6)) 20,
      normalizeTop (avoidInput (genreScores cexRows6)) 20⟩ :
        InterestGraph).topArtists =
    normalizeTop (artistScores cexRows6) 20 from rfl]
  rw [hA, hnorm]
  rw [assocGet, if_neg (by decide), assocGet, if_pos rfl]

/-- The single-row history of the C6 witness (an unweighted event kind,
so the raw score of artist A is 0 and no division happens). -/
def wrows6 : List IgRow := [⟨"UNKNOWN", some "A", none⟩]

/-- The graph the engine computes for `wrows6`. -/
def igW : InterestGraph := ⟨[("A", 0)], [], [], []⟩

theorem igW_compute : computeInterestGraph wrows6 = some igW := by
  have hA : artistScores wrows6 = [("A", (0 : ℚ))] := by
    simp [artistScores, scoreAxisGo, wrows6, bumpScore, assocGet,
      assocSet, igWeight]
  have hG : genreScores wrows6 = [] := by
    simp [genreScores, scoreAxisGo, wrows6]
  have hnA : normalizeTop [("A", (0 : ℚ))] 20 = [("A", 0)] := by
    rw [normalizeTop]
    rw [show sortDesc (fun p : String × ℚ => p.2) [("A", (0 : ℚ))] =
      [("A", (0 : ℚ))] from rfl]
    rw [show ([("A", (0 : ℚ))].take 20) = [("A", (0 : ℚ))] from rfl]
    rw [normCore]
    rw [show listMax ([("A", (0 : ℚ))].map Prod.snd) = 0 from rfl]
    simp
  have hnE : normalizeTop ([] : List (String × ℚ)) 20 = [] := rfl
  have haA : avoidInput [("A", (0 : ℚ))] = [] := by
    rw [avoidInput]
    rw [show ([("A", (0 : ℚ))].filter (fun p => decide (p.2 < 0))) =
      ([] : List (String × ℚ)) by norm_num [List.filter_cons]]
    rfl
  rw [computeInterestGraph, if_neg (by simp [wrows6])]
  rw [hA, hG, hnA, haA]
  rw [show avoidInput ([] : List (String × ℚ)) = [] from rfl]
  rw [hnE]
  rfl

/-- C6 witness: the invariants instantiated on the concrete history
`wrows6` and its computed graph `igW`. -/
theorem interest_graph_invariants_witness :
    igW.topArtists.length ≤ 20 ∧ MaxNorm igW.topArtists ∧
      igW.avoidArtists.length ≤ 20 ∧ MaxNorm igW.avoidArtists :=
  ⟨(interest_graph_invariants wrows6 igW igW_compute).1.1,
   (interest_graph_invariants wrows6 igW igW_compute).2.2.1.1,
   (interest_graph_invariants wrows6 igW igW_compute).1.2.2.1,
   (interest_graph_invariants wrows6 igW igW_compute).2.2.1.2.2.1⟩

end MusicRec
